import Mathlib

/-!
Verification of the answer-span decoder of a BERT question-answering
tutorial repository.  The repository's two notebooks call into a helper
module (`bert_qa_evaluate.py`) holding the span-prediction decoder: it
turns per-token start/end logit vectors into ranked answer strings.  The
helper module itself is not shipped with the notebooks, so the decoder
components below are modelled from the specification's component
contracts (Token-Offset Mapper, Span Enumerator & Scorer, Span Filter,
Ranker & Formatter); the response-formatting function `transform_fn`
is embedded directly from the `QA_Deploy` notebook source.

Numeric logits are modelled as rationals; the exponential of the softmax
is an explicit function parameter constrained to be positive (and, where
needed, monotone), so every definition stays executable.
-/

namespace SpanDecoder

/-- Modelled from the spec: a candidate answer span — a pair of token
indices plus the scalar score `start_logit[i] + end_logit[j]`
(spec §3 "Candidate Span"). -/
structure CandidateSpan where
  start_token_index : Nat
  end_token_index : Nat
  span_score : ℚ
deriving DecidableEq, Repr

/-- Score of the pair `(i, j)`: sum of the start logit at `i` and the
end logit at `j` (spec §4.2, `Score(i, j) = start_logit[i] + end_logit[j]`). -/
def spanScore (sL eL : List ℚ) (i j : Nat) : ℚ :=
  sL.getD i 0 + eL.getD j 0

/-- Modelled from the spec: validity of a pair `(i, j)` of token positions
(spec §4.2): `i ≤ j`, span length `j − i + 1 ≤ K`, both indices inside the
logit vectors, and both positions marked in-context. -/
def validSpanPair (sL eL : List ℚ) (ctx : List Bool) (K : Nat) (i j : Nat) : Prop :=
  i ≤ j ∧ i < sL.length ∧ j < eL.length ∧ j + 1 ≤ i + K ∧
    ctx.getD i false = true ∧ ctx.getD j false = true

instance validSpanPair.decidable (sL eL : List ℚ) (ctx : List Bool) (K i j : Nat) :
    Decidable (validSpanPair sL eL ctx K i j) := by
  unfold validSpanPair; infer_instance

/-- Modelled from the spec: the Span Enumerator & Scorer (spec §4.2).
For each start position `i` it walks the at most `K` end positions
`i, i+1, …, i+K−1` (the bounded-length `O(L·K)` enumeration), keeping a
pair when the end index is inside the end-logit vector and both positions
are marked in-context; each kept pair is scored by `spanScore`.
The candidate list is returned unsorted. -/
def enumerateSpans (sL eL : List ℚ) (ctx : List Bool) (K : Nat) : List CandidateSpan :=
  (List.range sL.length).flatMap fun i =>
    (List.range K).filterMap fun d =>
      if i + d < eL.length ∧ ctx.getD i false = true ∧ ctx.getD (i + d) false = true then
        some ⟨i, i + d, spanScore sL eL i (i + d)⟩
      else none

/-- A span is produced by the enumerator exactly when its index pair is
valid and its score is the logit sum at those indices. -/
lemma mem_enumerateSpans (sL eL : List ℚ) (ctx : List Bool) (K : Nat)
    (c : CandidateSpan) :
    c ∈ enumerateSpans sL eL ctx K ↔
      validSpanPair sL eL ctx K c.start_token_index c.end_token_index ∧
        c.span_score = spanScore sL eL c.start_token_index c.end_token_index := by
  unfold enumerateSpans validSpanPair
  simp only [List.mem_flatMap, List.mem_filterMap, List.mem_range]
  constructor
  · rintro ⟨i, hi, d, hd, hsome⟩
    split at hsome
    · rename_i hcond
      obtain ⟨hj, hci, hcj⟩ := hcond
      cases hsome
      refine ⟨⟨by show i ≤ i + d; omega, hi, hj, by show i + d + 1 ≤ i + K; omega,
        hci, hcj⟩, rfl⟩
    · exact absurd hsome (by simp)
  · rintro ⟨⟨hij, hi, hj, hK, hci, hcj⟩, hscore⟩
    refine ⟨c.start_token_index, hi, c.end_token_index - c.start_token_index, by omega, ?_⟩
    have harith : c.start_token_index + (c.end_token_index - c.start_token_index) =
        c.end_token_index := by omega
    rw [harith, if_pos ⟨hj, hci, hcj⟩, ← hscore]

/-- C2: every candidate span produced by the enumerator on logit vectors of
length `L` with maximum span length `K` satisfies
`0 ≤ start ≤ end < L`, `end − start + 1 ≤ K`, and both token positions are
marked in-context by the Token-Offset Mapper (start indices are naturals, so
`0 ≤ start` holds by type).  Spec-modelled (spec §4.2, §8). -/
theorem enumerated_span_invariants (sL eL : List ℚ) (ctx : List Bool) (K L : Nat)
    (_hsL : sL.length = L) (heL : eL.length = L) :
    ∀ c ∈ enumerateSpans sL eL ctx K,
      c.start_token_index ≤ c.end_token_index ∧
      c.end_token_index < L ∧
      c.end_token_index - c.start_token_index + 1 ≤ K ∧
      ctx.getD c.start_token_index false = true ∧
      ctx.getD c.end_token_index false = true := by
  intro c hc
  obtain ⟨⟨hij, hi, hj, hK, hci, hcj⟩, -⟩ := (mem_enumerateSpans sL eL ctx K c).1 hc
  exact ⟨hij, heL ▸ hj, by omega, hci, hcj⟩

/-- Witness for `enumerated_span_invariants` at a concrete input. -/
theorem enumerated_span_invariants_witness :
    (1 : Nat) ≤ 1 ∧ (1 : Nat) < 2 ∧ (1 : Nat) - 1 + 1 ≤ 30 ∧
      [false, true].getD 1 false = true ∧ [false, true].getD 1 false = true :=
  enumerated_span_invariants [1, 2] [0, 3] [false, true] 30 2 rfl rfl
    ⟨1, 1, spanScore [1, 2] [0, 3] 1 1⟩
    ((mem_enumerateSpans [1, 2] [0, 3] [false, true] 30 _).2 ⟨by decide, rfl⟩)

/-- C1: when the enumerator's candidate list has highest score `q` (before any
filtering), `q` is exactly the maximum of `start_logit[i] + end_logit[j]` over
all valid pairs `(i, j)`: it is attained at some valid pair and dominates every
valid pair.  Spec-modelled (spec §4.2, §8). -/
theorem best_candidate_is_max_over_valid_pairs (sL eL : List ℚ) (ctx : List Bool)
    (K : Nat) (q : ℚ)
    (h : ((enumerateSpans sL eL ctx K).map CandidateSpan.span_score).maximum =
      (q : WithBot ℚ)) :
    (∃ i j, validSpanPair sL eL ctx K i j ∧ q = spanScore sL eL i j) ∧
    ∀ i j, validSpanPair sL eL ctx K i j → spanScore sL eL i j ≤ q := by
  rw [List.maximum_eq_coe_iff] at h
  obtain ⟨hmem, hmax⟩ := h
  constructor
  · obtain ⟨c, hc, hq⟩ := List.mem_map.1 hmem
    obtain ⟨hvalid, hscore⟩ := (mem_enumerateSpans sL eL ctx K c).1 hc
    exact ⟨c.start_token_index, c.end_token_index, hvalid, by rw [← hq, hscore]⟩
  · intro i j hvalid
    have hc : (⟨i, j, spanScore sL eL i j⟩ : CandidateSpan) ∈
        enumerateSpans sL eL ctx K :=
      (mem_enumerateSpans sL eL ctx K _).2 ⟨hvalid, rfl⟩
    exact hmax _ (List.mem_map.2 ⟨_, hc, rfl⟩)

/-- Witness for `best_candidate_is_max_over_valid_pairs` at a concrete input:
with only position 1 in context the enumeration is a singleton, whose score is
the maximum over valid pairs. -/
theorem best_candidate_is_max_witness :
    (∃ i j, validSpanPair [1, 2] [0, 3] [false, true] 30 i j ∧
      spanScore [1, 2] [0, 3] 1 1 = spanScore [1, 2] [0, 3] i j) ∧
    ∀ i j, validSpanPair [1, 2] [0, 3] [false, true] 30 i j →
      spanScore [1, 2] [0, 3] i j ≤ spanScore [1, 2] [0, 3] 1 1 :=
  best_candidate_is_max_over_valid_pairs [1, 2] [0, 3] [false, true] 30
    (spanScore [1, 2] [0, 3] 1 1) rfl

/-- Modelled from the spec: the Span Filter's preference order (spec §4.3):
`a` is preferred to `b` when it scores strictly higher, or scores equal with a
lower start index, or scores equal with the same start and a shorter span. -/
def betterSpan (a b : CandidateSpan) : Bool :=
  decide (b.span_score < a.span_score) ||
    (decide (a.span_score = b.span_score) &&
      (decide (a.start_token_index < b.start_token_index) ||
        (decide (a.start_token_index = b.start_token_index) &&
          decide (a.end_token_index < b.end_token_index))))

/-- A candidate survives deduplication when no candidate in the pool that maps
to the same recovered text is strictly preferred to it. -/
def keepSpan (recover : Nat → Nat → String) (pool : List CandidateSpan)
    (c : CandidateSpan) : Bool :=
  pool.all fun d =>
    !(decide (recover d.start_token_index d.end_token_index =
        recover c.start_token_index c.end_token_index) && betterSpan d c)

/-- Modelled from the spec: the Span Filter (spec §4.3): discard spans whose
start or end falls outside the valid context range (`inRange`, the defensive
re-check), then deduplicate spans that map to identical recovered text, keeping
the preferred occurrence (highest score, ties broken by lower start index, then
shorter span). -/
def spanFilter (recover : Nat → Nat → String) (inRange : CandidateSpan → Bool)
    (l : List CandidateSpan) : List CandidateSpan :=
  let pool := l.filter inRange
  pool.filter (keepSpan recover pool)

/-- C3: the Span Filter's deduplication is idempotent — applying the filter
twice to any candidate list yields the same surviving list as applying it
once.  Spec-modelled (spec §4.3, §8). -/
theorem spanFilter_idempotent (recover : Nat → Nat → String)
    (inRange : CandidateSpan → Bool) (l : List CandidateSpan) :
    spanFilter recover inRange (spanFilter recover inRange l) =
      spanFilter recover inRange l := by
  unfold spanFilter
  set pool := l.filter inRange with hpool
  set out := pool.filter (keepSpan recover pool) with hout
  have hsub : ∀ c ∈ out, c ∈ pool := fun c hc => (List.mem_filter.1 hc).1
  have h1 : out.filter inRange = out :=
    List.filter_eq_self.2 fun c hc => (List.mem_filter.1 (hsub c hc)).2
  rw [h1]
  refine List.filter_eq_self.2 fun c hc => ?_
  have hkeep : keepSpan recover pool c = true := (List.mem_filter.1 hc).2
  unfold keepSpan at hkeep ⊢
  rw [List.all_eq_true] at hkeep ⊢
  exact fun d hd => hkeep d (hsub d hd)

/-- Maximum of a list of scores (the value subtracted for numerical
stability); for the empty list it falls back to `0`. -/
def listMax (l : List ℚ) : ℚ := l.foldr max (l.headD 0)

/-- Modelled from the spec: the numerically stable softmax of the Ranker &
Formatter (spec §4.4): subtract the maximum score before applying the
exponential-like map `e`, then normalize by the total.  `e` abstracts the
floating-point `exp`; the theorems assume only that it is positive (and,
where ordering matters, monotone). -/
def stableSoftmax (e : ℚ → ℚ) (scores : List ℚ) : List ℚ :=
  let m := listMax scores
  let exps := scores.map fun s => e (s - m)
  exps.map fun x => x / exps.sum

lemma sum_map_div (l : List ℚ) (T : ℚ) :
    (l.map fun x => x / T).sum = l.sum / T := by
  induction l with
  | nil => simp
  | cons a l ih => simp [ih, add_div]

/-- The stable softmax of a nonempty score list sums to exactly `1` whenever
the exponential map is positive. -/
lemma stableSoftmax_sum_eq_one (e : ℚ → ℚ) (scores : List ℚ)
    (hpos : ∀ x, 0 < e x) (hne : scores ≠ []) :
    (stableSoftmax e scores).sum = 1 := by
  unfold stableSoftmax
  set m := listMax scores with hm
  set exps := scores.map fun s => e (s - m) with hexps
  have hnil : exps ≠ [] := by
    simp only [hexps, ne_eq, List.map_eq_nil_iff]
    exact hne
  have hTpos : 0 < exps.sum := by
    refine List.sum_pos exps (fun x hx => ?_) hnil
    obtain ⟨s, -, rfl⟩ := List.mem_map.1 hx
    exact hpos _
  rw [sum_map_div, div_self (ne_of_gt hTpos)]

/-- Modelled from the spec: the Ranker's descending-by-score comparison
(spec §4.4). -/
def scoreGE (a b : CandidateSpan) : Prop := b.span_score ≤ a.span_score

instance : DecidableRel scoreGE := fun a b =>
  inferInstanceAs (Decidable (b.span_score ≤ a.span_score))

instance : IsTotal CandidateSpan scoreGE :=
  ⟨fun a b => le_total b.span_score a.span_score⟩

instance : IsTrans CandidateSpan scoreGE :=
  ⟨fun _ _ _ hab hbc => le_trans hbc hab⟩

/-- Internal n-best size, default taken from the training script's
`n_best_size=20` argument. -/
def n_best_size : Nat := 20

/-- Number of predictions surfaced to end users, taken from `transform_fn`'s
`range(3)` loop in the deployment notebook. -/
def surfaced_best_size : Nat := 3

/-- Modelled from the spec: the Ranker & Formatter (spec §4.4): sort surviving
spans descending by score, retain the top `N`, convert the retained scores to
probabilities with the stable softmax, and return `(text, probability)` pairs
in that order. -/
def rankAndFormat (e : ℚ → ℚ) (recover : Nat → Nat → String) (N : Nat)
    (l : List CandidateSpan) : List (String × ℚ) :=
  let top := (List.insertionSort scoreGE l).take N
  let probs := stableSoftmax e (top.map CandidateSpan.span_score)
  (top.zip probs).map fun p =>
    (recover p.1.start_token_index p.1.end_token_index, p.2)

lemma zip_self_map {α β : Type} (l : List α) (f : α → β) :
    l.zip (l.map f) = l.map fun a => (a, f a) := by
  induction l with
  | nil => rfl
  | cons a l ih => simp [ih]

/-- Closed form of the Ranker & Formatter: one map over the retained,
sorted prefix. -/
lemma rankAndFormat_closed (e : ℚ → ℚ) (recover : Nat → Nat → String) (N : Nat)
    (l : List CandidateSpan) :
    rankAndFormat e recover N l =
      ((List.insertionSort scoreGE l).take N).map fun c =>
        (recover c.start_token_index c.end_token_index,
          e (c.span_score -
              listMax (((List.insertionSort scoreGE l).take N).map
                CandidateSpan.span_score)) /
            (((List.insertionSort scoreGE l).take N).map fun d =>
                e (d.span_score -
                  listMax (((List.insertionSort scoreGE l).take N).map
                    CandidateSpan.span_score))).sum) := by
  unfold rankAndFormat stableSoftmax
  simp only [List.map_map, zip_self_map, List.map_map]
  simp only [Function.comp_def]

/-- C4: the probabilities produced by the stable softmax over the retained
top-`N` candidate scores (and only those) sum to `1` within the stated
`1e-6` tolerance, for every nonempty candidate list, positive retention
count and positive exponential map.  Spec-modelled (spec §4.4, §8). -/
theorem softmax_over_retained_sums_to_one (e : ℚ → ℚ) (N : Nat)
    (cands : List CandidateSpan) (hpos : ∀ x, 0 < e x) (hN : 0 < N)
    (hne : cands ≠ []) :
    |(stableSoftmax e (((List.insertionSort scoreGE cands).take N).map
        CandidateSpan.span_score)).sum - 1| ≤ 1 / 1000000 := by
  have hlen : 0 < (List.insertionSort scoreGE cands).length := by
    rw [List.length_insertionSort]
    exact List.length_pos.2 hne
  have hne' : ((List.insertionSort scoreGE cands).take N).map
      CandidateSpan.span_score ≠ [] := by
    apply List.ne_nil_of_length_pos
    rw [List.length_map, List.length_take]
    omega
  rw [stableSoftmax_sum_eq_one e _ hpos hne']
  norm_num

/-- Witness for `softmax_over_retained_sums_to_one` at a concrete input. -/
theorem softmax_retained_witness :
    |(stableSoftmax (fun _ => (1 : ℚ))
        (((List.insertionSort scoreGE [⟨0, 0, 2⟩]).take 20).map
          CandidateSpan.span_score)).sum - 1| ≤ 1 / 1000000 :=
  softmax_over_retained_sums_to_one (fun _ => 1) 20 [⟨0, 0, 2⟩]
    (fun _ => one_pos) (by decide) (List.cons_ne_nil _ _)

/-- C5: the Ranker & Formatter sorts surviving spans descending by score,
retains the top `N`, and delivers an ordered sequence of
`(answer_text, probability)` pairs of length at most `N`, ordered by
descending probability; the internal retention default is `20` and the
surfaced default is `3`.  The exponential map is assumed positive and
monotone, as the real `exp` is.  Spec-modelled (spec §4.4, §6). -/
theorem ranked_output_spec (e : ℚ → ℚ) (recover : Nat → Nat → String) (N : Nat)
    (l : List CandidateSpan) (hpos : ∀ x, 0 < e x)
    (hmono : ∀ a b : ℚ, a ≤ b → e a ≤ e b) :
    (rankAndFormat e recover N l).length ≤ N ∧
    (rankAndFormat e recover N l).Pairwise (fun p q => q.2 ≤ p.2) ∧
    n_best_size = 20 ∧ surfaced_best_size = 3 := by
  rw [rankAndFormat_closed]
  set top := (List.insertionSort scoreGE l).take N with htop
  refine ⟨?_, ?_, rfl, rfl⟩
  · rw [List.length_map, htop, List.length_take]
    omega
  · rcases eq_or_ne top [] with h | h
    · simp [h]
    · have hTpos : 0 < (top.map fun d =>
          e (d.span_score - listMax (top.map CandidateSpan.span_score))).sum := by
        refine List.sum_pos _ (fun x hx => ?_) ?_
        · obtain ⟨c, -, rfl⟩ := List.mem_map.1 hx
          exact hpos _
        · simpa only [ne_eq, List.map_eq_nil_iff] using h
      have hsorted : top.Pairwise scoreGE :=
        (List.sorted_insertionSort scoreGE l).sublist (List.take_sublist N _)
      rw [List.pairwise_map]
      refine hsorted.imp fun {a b} hab => ?_
      exact div_le_div_of_nonneg_right
        (hmono _ _ (sub_le_sub_right hab _)) hTpos.le

/-- Witness for `ranked_output_spec` at a concrete input. -/
theorem ranked_output_witness :
    (rankAndFormat (fun _ => (1 : ℚ)) (fun _ _ => "") 20 [⟨0, 0, 2⟩]).length ≤ 20 ∧
    (rankAndFormat (fun _ => (1 : ℚ)) (fun _ _ => "") 20
      [⟨0, 0, 2⟩]).Pairwise (fun p q => q.2 ≤ p.2) ∧
    n_best_size = 20 ∧ surfaced_best_size = 3 :=
  ranked_output_spec (fun _ => 1) (fun _ _ => "") 20 [⟨0, 0, 2⟩]
    (fun _ => one_pos) (fun _ _ _ => le_rfl)

/-- Modelled from the spec: the Token-Offset Mapper's text recovery
(spec §4.1): the half-open character range of the span's start token gives the
first character, the range of its end token gives the character past the end,
and the recovered answer is that substring of the original context.  A token
whose offset entry is the not-in-context sentinel (`none`) makes recovery
fail. -/
def recoverText (context : List Char) (offsets : List (Option (Nat × Nat)))
    (s t : Nat) : Option String :=
  match offsets.getD s none, offsets.getD t none with
  | some (cs, _), some (_, ce) => some (String.mk ((context.drop cs).take (ce - cs)))
  | _, _ => none

/-- Modelled from the spec: an encoded question-context example (spec §3):
the original context text, the per-token in-context marks derived from the
segment ids, and the per-token character ranges (`none` for question tokens,
special tokens and padding). -/
structure EncodedExample where
  contextChars : List Char
  inContext : List Bool
  offsets : List (Option (Nat × Nat))

/-- Modelled from the spec: the decoder's error kinds (spec §7). -/
inductive DecodeError where
  | MalformedOffsetMapping
  | EmptyCandidateSet
  | InvalidConfiguration
deriving DecidableEq, Repr

/-- The Span Filter's defensive range re-check (spec §4.3): both endpoints of
the span must carry the in-context mark. -/
def spanInRange (ex : EncodedExample) (c : CandidateSpan) : Bool :=
  ex.inContext.getD c.start_token_index false &&
    ex.inContext.getD c.end_token_index false

/-- Total text recovery used once all required offsets are known present. -/
def recoverOrEmpty (ex : EncodedExample) (s t : Nat) : String :=
  (recoverText ex.contextChars ex.offsets s t).getD ""

/-- Modelled from the spec: the full decode step (spec §2, §4, §7): validate
the configuration, enumerate and score candidate spans, recover their texts
(failing on a missing offset), filter and deduplicate, and rank the survivors.
Every error is returned synchronously as an `Except.error` value — the
function performs no retry and no I/O. -/
def decode (ex : EncodedExample) (sL eL : List ℚ) (K N : Int) (e : ℚ → ℚ) :
    Except DecodeError (List (String × ℚ)) :=
  if K ≤ 0 ∨ N ≤ 0 then .error .InvalidConfiguration
  else
    let cands := enumerateSpans sL eL ex.inContext K.toNat
    if cands.any (fun c => (recoverText ex.contextChars ex.offsets
        c.start_token_index c.end_token_index).isNone) then
      .error .MalformedOffsetMapping
    else
      let survivors := spanFilter (recoverOrEmpty ex) (spanInRange ex) cands
      if survivors.isEmpty then .error .EmptyCandidateSet
      else .ok (rankAndFormat e (recoverOrEmpty ex) N.toNat survivors)

/-- C6: the decoder signals `InvalidConfiguration` when the maximum span
length or the retention count is non-positive, `MalformedOffsetMapping` when a
required token index has no valid character range, and `EmptyCandidateSet`
when no valid span survives filtering; each error is the synchronous return
value of the single evaluation of `decode` — nothing is retried.
Spec-modelled (spec §7). -/
theorem decode_error_conditions (ex : EncodedExample) (sL eL : List ℚ)
    (K N : Int) (e : ℚ → ℚ) :
    ((K ≤ 0 ∨ N ≤ 0) →
      decode ex sL eL K N e = .error .InvalidConfiguration) ∧
    (0 < K → 0 < N →
      (enumerateSpans sL eL ex.inContext K.toNat).any (fun c =>
        (recoverText ex.contextChars ex.offsets c.start_token_index
          c.end_token_index).isNone) = true →
      decode ex sL eL K N e = .error .MalformedOffsetMapping) ∧
    (0 < K → 0 < N →
      (enumerateSpans sL eL ex.inContext K.toNat).any (fun c =>
        (recoverText ex.contextChars ex.offsets c.start_token_index
          c.end_token_index).isNone) = false →
      spanFilter (recoverOrEmpty ex) (spanInRange ex)
        (enumerateSpans sL eL ex.inContext K.toNat) = [] →
      decode ex sL eL K N e = .error .EmptyCandidateSet) := by
  refine ⟨fun h => ?_, fun hK hN hany => ?_, fun hK hN hany hsurv => ?_⟩
  · simp only [decode, if_pos h]
  · have hcond : ¬(K ≤ 0 ∨ N ≤ 0) := by omega
    simp only [decode, if_neg hcond, hany, if_true]
  · have hcond : ¬(K ≤ 0 ∨ N ≤ 0) := by omega
    simp only [decode, if_neg hcond, hany, Bool.false_eq_true, if_false, hsurv,
      List.isEmpty_nil, if_true]

/-- Witness for `decode_error_conditions`: the three error branches at
concrete inputs. -/
theorem decode_error_conditions_witness :
    decode ⟨[], [], []⟩ [] [] 0 1 (fun x => x) =
      .error .InvalidConfiguration ∧
    decode ⟨[], [true], [none]⟩ [1] [1] 30 3 (fun x => x) =
      .error .MalformedOffsetMapping ∧
    decode ⟨[], [], []⟩ [1] [1] 30 3 (fun x => x) =
      .error .EmptyCandidateSet :=
  ⟨(decode_error_conditions ⟨[], [], []⟩ [] [] 0 1 (fun x => x)).1
      (Or.inl (by decide)),
   (decode_error_conditions ⟨[], [true], [none]⟩ [1] [1] 30 3 (fun x => x)).2.1
      (by decide) (by decide) (by decide),
   (decode_error_conditions ⟨[], [], []⟩ [1] [1] 30 3 (fun x => x)).2.2
      (by decide) (by decide) (by decide) rfl⟩

/-- C8: decoding is a pure, deterministic function of the logits, the
tokenized example, the configuration and the exponential map: equal inputs
yield identical ranked predictions, and recovering the text of the same
(start, end) span twice from the same example yields the same string.
Spec-modelled (spec §4.4 state machine, §5, §8). -/
theorem decode_deterministic (ex ex' : EncodedExample) (sL sL' eL eL' : List ℚ)
    (K K' N N' : Int) (e e' : ℚ → ℚ) (s t : Nat)
    (hex : ex = ex') (hsL : sL = sL') (heL : eL = eL') (hK : K = K')
    (hN : N = N') (he : e = e') :
    decode ex sL eL K N e = decode ex' sL' eL' K' N' e' ∧
    recoverText ex.contextChars ex.offsets s t =
      recoverText ex'.contextChars ex'.offsets s t := by
  subst hex hsL heL hK hN he
  exact ⟨rfl, rfl⟩

/-- Witness for `decode_deterministic` at a concrete input. -/
theorem decode_deterministic_witness :
    decode ⟨[], [true], [some (0, 1)]⟩ [1] [1] 30 3 (fun _ => 1) =
      decode ⟨[], [true], [some (0, 1)]⟩ [1] [1] 30 3 (fun _ => 1) ∧
    recoverText [] [some (0, 1)] 0 0 = recoverText [] [some (0, 1)] 0 0 :=
  decode_deterministic ⟨[], [true], [some (0, 1)]⟩ ⟨[], [true], [some (0, 1)]⟩
    [1] [1] [1] [1] 30 30 3 3 (fun _ => 1) (fun _ => 1) 0 0
    rfl rfl rfl rfl rfl rfl

lemma length_filterMap_le_one {α β : Type} (l : List α) (f : α → Option β)
    (a : α) (hl : l.Nodup) (h : ∀ x ∈ l, (f x).isSome → x = a) :
    (l.filterMap f).length ≤ 1 := by
  induction l with
  | nil => simp
  | cons x l ih =>
    rw [List.filterMap_cons]
    rcases List.nodup_cons.1 hl with ⟨hx, hl'⟩
    cases hfx : f x with
    | none => exact ih hl' fun y hy hsy => h y (List.mem_cons_of_mem x hy) hsy
    | some b =>
      have hxa : x = a := h x (List.mem_cons_self x l) (by simp [hfx])
      have hnil : l.filterMap f = [] := by
        rw [List.filterMap_eq_nil_iff]
        intro y hy
        cases hfy : f y with
        | none => rfl
        | some c =>
          have hya : y = a := h y (List.mem_cons_of_mem x hy) (by simp [hfy])
          exact absurd (show x ∈ l by rw [hxa, ← hya]; exact hy) hx
      simp [hnil]

lemma sum_map_range_le_one (L : Nat) (g : Nat → Nat) (u : Nat)
    (h0 : ∀ i, i ≠ u → g i = 0) (h1 : g u ≤ 1) :
    ((List.range L).map g).sum ≤ 1 := by
  induction L with
  | zero => simp
  | succ n ih =>
    rw [List.range_succ, List.map_append, List.sum_append]
    by_cases hn : n = u
    · subst hn
      have hzero : ((List.range n).map g).sum = 0 := by
        refine List.sum_eq_zero fun x hx => ?_
        obtain ⟨i, hi, rfl⟩ := List.mem_map.1 hx
        exact h0 i (by rw [List.mem_range] at hi; omega)
      simpa [hzero] using h1
    · have : g n = 0 := h0 n hn
      simpa [this] using ih

/-- C9: when at most one token position is marked in-context — in particular
for an encoded example holding exactly one context token — the enumeration
with maximum span length `K = 30` yields at most one candidate span; decoding
is a total function of its arguments, so no input can crash it.
Spec-modelled (spec §8 boundary property). -/
theorem single_context_token_at_most_one_candidate (sL eL : List ℚ)
    (ctx : List Bool)
    (hu : ∀ i j, ctx.getD i false = true → ctx.getD j false = true → i = j) :
    (enumerateSpans sL eL ctx 30).length ≤ 1 := by
  classical
  unfold enumerateSpans
  rw [List.length_flatMap]
  by_cases hex : ∃ u, ctx.getD u false = true
  · obtain ⟨u, huu⟩ := hex
    refine sum_map_range_le_one sL.length _ u (fun i hiu => ?_) ?_
    · have hfalse : ctx.getD i false = false := by
        cases hgi : ctx.getD i false with
        | false => rfl
        | true => exact absurd (hu i u hgi huu) hiu
      simp only [Function.comp_apply]
      rw [List.length_eq_zero, List.filterMap_eq_nil_iff]
      intro d _
      rw [if_neg]
      rintro ⟨-, hci, -⟩
      rw [hfalse] at hci
      exact Bool.false_ne_true hci
    · simp only [Function.comp_apply]
      refine length_filterMap_le_one _ _ 0 (List.nodup_range 30) ?_
      intro d _ hsome
      by_contra hd0
      have hcond : u + d < eL.length ∧ ctx.getD u false = true ∧
          ctx.getD (u + d) false = true := by
        by_contra hc
        rw [if_neg hc] at hsome
        simp at hsome
      have := hu (u + d) u hcond.2.2 huu
      omega
  · push_neg at hex
    refine sum_map_range_le_one sL.length _ 0 (fun i _ => ?_) ?_
    · simp only [Function.comp_apply]
      rw [List.length_eq_zero, List.filterMap_eq_nil_iff]
      intro d _
      rw [if_neg]
      rintro ⟨-, hci, -⟩
      exact hex i hci
    · simp only [Function.comp_apply]
      refine le_trans (le_of_eq ?_) (Nat.zero_le 1)
      rw [List.length_eq_zero, List.filterMap_eq_nil_iff]
      intro d _
      rw [if_neg]
      rintro ⟨-, hci, -⟩
      exact hex 0 hci

/-- Witness for `single_context_token_at_most_one_candidate` at a concrete
single-context-token input. -/
theorem single_context_token_witness :
    (enumerateSpans [1, 2] [0, 3] [false, true] 30).length ≤ 1 :=
  single_context_token_at_most_one_candidate [1, 2] [0, 3] [false, true]
    (by
      intro i j hi hj
      match i, j with
      | 1, 1 => rfl
      | 0, _ => exact absurd hi (by decide)
      | _ + 2, _ => exact absurd hi (by simp [List.getD])
      | 1, 0 => exact absurd hj (by decide)
      | 1, _ + 2 => exact absurd hj (by simp [List.getD]))

/-- Two-decimal fixed-point rendering of a rational, as Python's `'%.2f'`
conversion produces for the values at hand (round to nearest hundredth;
the notebook's probabilities are far from representation ties, so the
float tie-breaking rule is immaterial to the model). -/
def formatFixed2 (v : ℚ) : String :=
  let n : Int := round (v * 100)
  let sign := if n < 0 then "-" else ""
  let m := n.natAbs
  sign ++ toString (m / 100) ++ "." ++
    (if m % 100 < 10 then "0" else "") ++ toString (m % 100)

/-- Embedded from `transform_fn` in the `QA_Deploy` notebook: each surfaced
prediction is the single string `'%.2f%% \t %s' % (nbest[i][1] * 100,
nbest[i][0])` — the percentage and the answer text concatenated into one
formatted string, not a `(text, probability)` pair. -/
def formatPrediction (p : String × ℚ) : String :=
  formatFixed2 (p.2 * 100) ++ "% \t " ++ p.1

/-- Embedded from `transform_fn` in the `QA_Deploy` notebook: the loop
`for i in range(3)` reads `nbest[0]`, `nbest[1]`, `nbest[2]` unconditionally;
a missing entry aborts the whole computation with `none`, modelling the
uncaught Python `IndexError`. -/
def transform_fn_nbest (nbest : List (String × ℚ)) : Option (List String) :=
  (List.range 3).mapM fun i => (nbest[i]?).map formatPrediction

/-- C10: `transform_fn` surfaces exactly 3 predictions per example by
unconditional indexing: with fewer than 3 n-best candidates the computation
aborts (uncaught `IndexError`, modelled as `none`) instead of returning an
error value, and with at least 3 candidates the output is exactly the three
formatted strings `'%.2f%% \t %s'`, not `(text, probability)` pairs.
Embedded from `src/tutorial/QA_Deploy.ipynb`. -/
theorem transform_fn_three_formatted_strings (nbest : List (String × ℚ)) :
    (nbest.length < 3 → transform_fn_nbest nbest = none) ∧
    (3 ≤ nbest.length → ∃ a b c : String × ℚ,
      nbest[0]? = some a ∧ nbest[1]? = some b ∧ nbest[2]? = some c ∧
      transform_fn_nbest nbest = some
        [formatPrediction a, formatPrediction b, formatPrediction c]) := by
  constructor
  · intro hlen
    match nbest, hlen with
    | [], _ => rfl
    | [a], _ =>
      simp [transform_fn_nbest, List.range_succ, List.mapM, List.mapM.loop]
    | [a, b], _ =>
      simp [transform_fn_nbest, List.range_succ, List.mapM, List.mapM.loop]
  · intro hlen
    match nbest, hlen with
    | a :: b :: c :: rest, _ =>
      refine ⟨a, b, c, by simp, by simp, by simp, ?_⟩
      simp [transform_fn_nbest, List.range_succ, List.mapM, List.mapM.loop]

/-- Witness for `transform_fn_three_formatted_strings` at concrete inputs:
a two-element n-best list aborts, a three-element list yields the three
formatted strings. -/
theorem transform_fn_witness :
    transform_fn_nbest [("Denver Broncos", (1 : ℚ)), ("Broncos", 0)] = none ∧
    ∃ a b c : String × ℚ,
      [("Denver Broncos", (1 : ℚ)), ("Broncos", 0), ("Carolina", 0)][0]? = some a ∧
      [("Denver Broncos", (1 : ℚ)), ("Broncos", 0), ("Carolina", 0)][1]? = some b ∧
      [("Denver Broncos", (1 : ℚ)), ("Broncos", 0), ("Carolina", 0)][2]? = some c ∧
      transform_fn_nbest [("Denver Broncos", (1 : ℚ)), ("Broncos", 0), ("Carolina", 0)] =
        some [formatPrediction a, formatPrediction b, formatPrediction c] :=
  ⟨(transform_fn_three_formatted_strings
      [("Denver Broncos", (1 : ℚ)), ("Broncos", 0)]).1 (by decide),
   (transform_fn_three_formatted_strings
      [("Denver Broncos", (1 : ℚ)), ("Broncos", 0), ("Carolina", 0)]).2 (by decide)⟩

end SpanDecoder
